import Mathlib

/-!
Verification of the tic-tac-toe engine in `TicTacToeAI.py`.

The Python source is shallowly embedded: `Board` is a record of a size and a
row-major cell list, Python lists become `List`, `None` becomes `none`,
in-place mutation of a method receiver is made explicit by returning the
receiver's post-state, code that can raise returns `Option` (with `none`
standing for the raised exception), and the float infinities used as
alpha/beta bounds become the three-valued type `XVal` below.
-/

/-- The `Player` enum of the source: values `O` and `X`. -/
inductive Player where
  | O : Player
  | X : Player
deriving DecidableEq

/-- A board: `size` and the row-major cell list `board`, as in `Board.__init__`.
Cells are `Option Player` (`none` is Python `None`). -/
structure Board where
  size : Nat
  board : List (Option Player)
deriving DecidableEq

/-- Python `Board.create_board(size)`, i.e. `[None]*(size**2)`. -/
def create_board (size : Nat) : List (Option Player) :=
  List.replicate (size ^ 2) none

/-- Python `Board.place(self, grid, player)`, i.e. `self.board[grid] = player`.
The method mutates its receiver and returns `None`; the embedding returns the
receiver's post-state.  In-range indices are the only ones the search ever
uses; the full Python indexing semantics (IndexError, negative wrap-around)
is modelled separately by `Board.placeChecked`. -/
def Board.place (b : Board) (grid : Nat) (p : Player) : Board :=
  ⟨b.size, b.board.set grid (some p)⟩

/-- Python `self.board[grid] = player` with the exact CPython list-assignment
semantics for an arbitrary `int` index: indices in `[0, len)` write that cell,
indices in `[-len, 0)` silently write cell `len + grid`, anything else raises
`IndexError` (modelled by `none`). -/
def Board.placeChecked (b : Board) (grid : Int) (p : Player) : Option Board :=
  if 0 ≤ grid ∧ grid < (b.board.length : Int) then
    some ⟨b.size, b.board.set grid.toNat (some p)⟩
  else if 0 ≤ grid + (b.board.length : Int) ∧ grid < 0 then
    some ⟨b.size, b.board.set (grid + (b.board.length : Int)).toNat (some p)⟩
  else none

/-- Python `Board.duplicate`, i.e. `Board(self.size, self.board)`.  The
constructor copies via `board.copy() if board else Board.create_board(size)`;
note the Python truthiness test: an empty list is falsy, so an empty cell
list is rebuilt by `create_board`. -/
def Board.duplicate (b : Board) : Board :=
  ⟨b.size, if b.board.isEmpty then create_board b.size else b.board⟩

/-- Python positive-step list slice `l[start:stop:step]` (all bounds
non-negative, as in every slice `check_win` takes): the elements at indices
`start, start+step, ...` below `min stop l.length`.  The count formula is the
ceiling of `(min stop len - start) / step`; every index produced is in range,
so `getD` never takes its default. -/
def pySlice (l : List (Option Player)) (start stop step : Nat) : List (Option Player) :=
  (List.range ((min stop l.length - start + (step - 1)) / step)).map
    fun k => l.getD (start + k * step) none

/-- The body of `Board.check_win` for the sizes at which its slices are legal
(`size ≥ 2`): verticals `board[i::size]`, horizontals `board[i:i+size]` for
`i in range(0, size**2, size)`, diagonals `board[::size+1]` and
`board[size-1:size**2-1:size-1]`, and `check_line` = `all(player == elem)`
over each line. -/
def checkWinB (b : Board) (p : Player) : Bool :=
  let verticals := (List.range b.size).map fun i => pySlice b.board i b.board.length b.size
  let horizontals := (List.range b.size).map fun k =>
    pySlice b.board (k * b.size) (k * b.size + b.size) 1
  let diagonals := [pySlice b.board 0 b.board.length (b.size + 1),
    pySlice b.board (b.size - 1) (b.size ^ 2 - 1) (b.size - 1)]
  (verticals ++ horizontals ++ diagonals).any fun line => line.all fun e => e == some p

/-- Python `Board.check_win(self, player)`.  For `size = 1` the anti-diagonal
slice `board[0:0:0]` has step `size-1 = 0` and CPython raises
`ValueError: slice step cannot be zero`; for `size = 0` the horizontal
comprehension `range(0, size**2, size)` raises `ValueError: range() arg 3 must
not be zero`.  Either exception is modelled by `none`. -/
def Board.check_win (b : Board) (p : Player) : Option Bool :=
  if b.size ≤ 1 then none else some (checkWinB b p)

/-- Python `Board.find_num_empty`, i.e. `self.board.count(None)`. -/
def Board.find_num_empty (b : Board) : Nat :=
  b.board.countP fun e => e == none

/-- The list `[i for i, v in enumerate(self.board) if v == None]` built by
`Board.find_empty_grids` before it is shuffled. -/
def emptyGridsBase (b : Board) : List Nat :=
  (List.range b.board.length).filter fun i => b.board.getD i none == none

/-- A model of `random.shuffle`: an arbitrary policy that permutes any list
of indices.  The permutation proof is exactly the contract of `shuffle`. -/
def Shuffler : Type :=
  (l : List Nat) → {m : List Nat // m.Perm l}

/-- The identity enumeration policy (a legal outcome of `shuffle`). -/
def idShuffle : Shuffler := fun l => ⟨l, List.Perm.refl l⟩

/-- Python `Board.find_empty_grids` under enumeration policy `sh`. -/
def Board.find_empty_grids (b : Board) (sh : Shuffler) : List Nat :=
  (sh (emptyGridsBase b)).val

/-- Python `Board.end`, i.e. `find_num_empty() == 0`. -/
def Board.isEnd (b : Board) : Bool :=
  b.find_num_empty = 0

/-- Python `Board.__init__(size, board=None)` for an arbitrary `int` size:
`[None]*(size**2)` always succeeds (`size**2 ≥ 0` for every int), so the
constructor performs no validation and never rejects; it returns the stored
size together with the fresh cell list.  `Option` records that construction
could in principle fail — it provably never does. -/
def boardInit (size : Int) : Option (Int × List (Option Player)) :=
  some (size, List.replicate (size ^ 2).toNat none)

/-- The inner `switch` of `AI.minimax`. -/
def switch : Player → Player
  | .O => .X
  | .X => .O

/-- The inner `evaluate` of `AI.minimax`: `0` on a full board, else
`num_empty+1` if `O` has a line, else `-(num_empty+1)` if `X` has a line,
else `None` (non-terminal).  The win checks are taken in the non-raising form
`checkWinB`, so this model of `evaluate` — and of `minimax` through it — is
faithful exactly where the real `check_win` does not raise, i.e. at
`size ≥ 2` (at `size ≤ 1` the Python raises `ValueError`, see
`Board.check_win` and the theorem for C9); accordingly every theorem whose
execution path can reach a win check carries a `2 ≤ size` hypothesis.  The
full-board branch returns before any win check, so it is exception-free at
every size and needs no such guard. -/
def evaluate (b : Board) : Option Int :=
  if b.find_num_empty = 0 then some 0
  else if checkWinB b .O then some ((b.find_num_empty : Int) + 1)
  else if checkWinB b .X then some (-((b.find_num_empty : Int) + 1))
  else none

/-- Alpha/beta values: the Python floats `-inf`, finite `int` rewards, `+inf`. -/
inductive XVal where
  | negInf : XVal
  | fin : Int → XVal
  | posInf : XVal
deriving DecidableEq

/-- Comparison on `XVal`, mirroring float comparison with infinities. -/
def XVal.leb : XVal → XVal → Bool
  | .negInf, _ => true
  | _, .posInf => true
  | .fin a, .fin b => decide (a ≤ b)
  | .fin _, .negInf => false
  | .posInf, .fin _ => false
  | .posInf, .negInf => false

instance : LinearOrder XVal where
  le a b := XVal.leb a b = true
  lt a b := XVal.leb b a = false
  le_refl a := by cases a <;> simp [XVal.leb]
  le_trans a b c := by cases a <;> cases b <;> cases c <;> simp [XVal.leb] <;> omega
  le_antisymm a b := by cases a <;> cases b <;> simp [XVal.leb] <;> omega
  le_total a b := by cases a <;> cases b <;> simp [XVal.leb] <;> omega
  lt_iff_le_not_le a b := by cases a <;> cases b <;> simp [XVal.leb] <;> omega
  decidableLE a b := decEq (XVal.leb a b) true
  decidableLT a b := decEq (XVal.leb b a) false
  decidableEq := inferInstance

instance (a b : XVal) : Decidable (a ≤ b) := decEq (XVal.leb a b) true

instance (a b : XVal) : Decidable (a < b) := decEq (XVal.leb b a) false

/-- The loop of the inner `play_maximise` of `AI.minimax`.  State
`(alpha, beta, best, bb)` mirrors the Python locals `(alpha, beta,
reward_best, board_best)`; `rec` is the recursive `AI.minimax` call on the
child board.  Each iteration places `player` on a copy of the board, updates
the best reward/board and `alpha` on strict improvement, and breaks as soon
as `beta <= alpha`. -/
def maxLoop (rec : Board → Player → XVal → XVal → XVal × Option Board) (b : Board)
    (player : Player) : List Nat → XVal → XVal → XVal → Option Board → XVal × Option Board
  | [], _, _, best, bb => (best, bb)
  | grid :: rest, alpha, beta, best, bb =>
    let bn : Board := (b.duplicate).place grid player
    let rn : XVal := (rec bn (switch player) alpha beta).1
    let best2 : XVal := if best < rn then rn else best
    let bb2 : Option Board := if best < rn then some bn else bb
    let alpha2 : XVal := if best < rn then max alpha rn else alpha
    if beta ≤ alpha2 then (best2, bb2)
    else maxLoop rec b player rest alpha2 beta best2 bb2

/-- The loop of the inner `play_minimise` of `AI.minimax` (dual of
`maxLoop`: tracks the lowest reward and tightens `beta`). -/
def minLoop (rec : Board → Player → XVal → XVal → XVal × Option Board) (b : Board)
    (player : Player) : List Nat → XVal → XVal → XVal → Option Board → XVal × Option Board
  | [], _, _, best, bb => (best, bb)
  | grid :: rest, alpha, beta, best, bb =>
    let bn : Board := (b.duplicate).place grid player
    let rn : XVal := (rec bn (switch player) alpha beta).1
    let best2 : XVal := if rn < best then rn else best
    let bb2 : Option Board := if rn < best then some bn else bb
    let beta2 : XVal := if rn < best then min beta rn else beta
    if beta2 ≤ alpha then (best2, bb2)
    else minLoop rec b player rest alpha beta2 best2 bb2

/-- Fuel-indexed embedding of `AI.minimax`.  The Python function recurses on
boards with strictly fewer empty cells; `fuel` is that count, so with the
canonical fuel `b.find_num_empty` (see `AI.minimax`) every child call again
carries its exact empty-cell count and the `fuel = 0` non-terminal branch is
unreachable (a full board is terminal).  Terminal boards return
`(curr_val, board)` — the evaluation paired with the input board itself. -/
def minimaxGo (sh : Shuffler) : Nat → Board → Player → XVal → XVal → XVal × Option Board
  | 0, b, _, _, _ =>
    match evaluate b with
    | some v => (XVal.fin v, some b)
    | none => (XVal.fin 0, none)
  | fuel + 1, b, player, alpha, beta =>
    match evaluate b with
    | some v => (XVal.fin v, some b)
    | none =>
      let grids := b.find_empty_grids sh
      if player = Player.O then
        maxLoop (minimaxGo sh fuel) b player grids alpha beta XVal.negInf none
      else
        minLoop (minimaxGo sh fuel) b player grids alpha beta XVal.posInf none

/-- Python `AI.minimax(board, player, alpha, beta)` under enumeration policy
`sh`, at the canonical fuel. -/
def AI.minimax (sh : Shuffler) (b : Board) (player : Player) (alpha beta : XVal) :
    XVal × Option Board :=
  minimaxGo sh b.find_num_empty b player alpha beta

/-- Modelled from the spec: the brute-force, unpruned full-tree minimax value
with the same terminal evaluation (`evaluate`) — the comparator demanded by
the optimality property.  Children are taken in canonical index order. -/
def mmGo : Nat → Board → Player → XVal
  | 0, b, _ =>
    match evaluate b with
    | some v => XVal.fin v
    | none => XVal.fin 0
  | fuel + 1, b, player =>
    match evaluate b with
    | some v => XVal.fin v
    | none =>
      let cs := (emptyGridsBase b).map fun g =>
        mmGo fuel ((b.duplicate).place g player) (switch player)
      match player with
      | .O => cs.foldl max XVal.negInf
      | .X => cs.foldl min XVal.posInf

/-- Brute-force minimax value at the canonical fuel. -/
def mmValue (b : Board) (p : Player) : XVal :=
  mmGo b.find_num_empty b p

/-- The cell at flat index `i`. -/
def cellAt (b : Board) (i : Nat) : Option Player :=
  b.board.getD i none

/-- Modelled from the spec: `p` owns one of the `2n+2` lines — some column,
some row, the top-left-to-bottom-right diagonal, or the
top-right-to-bottom-left diagonal — with every cell of the line equal to `p`. -/
def specWin (b : Board) (p : Player) : Prop :=
  (∃ c, c < b.size ∧ ∀ r, r < b.size → cellAt b (r * b.size + c) = some p) ∨
  (∃ r, r < b.size ∧ ∀ c, c < b.size → cellAt b (r * b.size + c) = some p) ∨
  (∀ i, i < b.size → cellAt b (i * (b.size + 1)) = some p) ∨
  (∀ i, i < b.size → cellAt b ((i + 1) * (b.size - 1)) = some p)

instance (b : Board) (p : Player) : Decidable (specWin b p) := by
  unfold specWin
  infer_instance

/-- The fail-soft alpha-beta window property: a returned value `g` relates to
the true value `m` inside, below, and above the window `(alpha, beta)`. -/
abbrev WProp (g m alpha beta : XVal) : Prop :=
  (g ≤ alpha → m ≤ g) ∧ (alpha < g → g < beta → g = m) ∧ (beta ≤ g → g ≤ m)

/-- The board of end-to-end scenario 2: `[O,O,None,X,X,None,None,None,None]`. -/
def bScenario2 : Board :=
  ⟨3, [some .O, some .O, none, some .X, some .X, none, none, none, none]⟩

/-- A full board on which `O` owns the top row and `X` owns no line. -/
def bFullOWin : Board :=
  ⟨3, [some .O, some .O, some .O, some .X, some .X, some .O,
    some .X, some .O, some .X]⟩

/-- A full drawn board (no line for either player). -/
def bFullDraw : Board :=
  ⟨3, [some .O, some .X, some .O, some .O, some .X, some .X,
    some .X, some .O, some .O]⟩

/-- The shape of every board the search hands back from a non-terminal
position: a copy of the input board with `p` placed on one formerly empty,
in-range cell. -/
def goodMove (b : Board) (p : Player) (ob : Option Board) : Prop :=
  ∃ g, g < b.board.length ∧ b.board.getD g none = none ∧
    ob = some ((b.duplicate).place g p)

/-! ### Order facts about `XVal` -/

theorem XVal.le_def (a b : XVal) : (a ≤ b) = (XVal.leb a b = true) := rfl

theorem XVal.lt_def (a b : XVal) : (a < b) = (XVal.leb b a = false) := rfl

@[simp] theorem XVal.negInf_le (a : XVal) : XVal.negInf ≤ a := by
  cases a <;> rfl

@[simp] theorem XVal.le_posInf (a : XVal) : a ≤ XVal.posInf := by
  cases a <;> rfl

@[simp] theorem XVal.fin_le_fin {a b : Int} : (XVal.fin a ≤ XVal.fin b) ↔ a ≤ b := by
  simp [XVal.le_def, XVal.leb]

@[simp] theorem XVal.fin_lt_fin {a b : Int} : (XVal.fin a < XVal.fin b) ↔ a < b := by
  simp [XVal.lt_def, XVal.leb]

@[simp] theorem XVal.negInf_lt_fin (n : Int) : XVal.negInf < XVal.fin n := rfl

@[simp] theorem XVal.negInf_lt_posInf : XVal.negInf < XVal.posInf := rfl

@[simp] theorem XVal.fin_lt_posInf (n : Int) : XVal.fin n < XVal.posInf := rfl

@[simp] theorem XVal.le_negInf_iff {a : XVal} : a ≤ XVal.negInf ↔ a = XVal.negInf := by
  cases a <;> simp [XVal.le_def, XVal.leb]

@[simp] theorem XVal.posInf_le_iff {a : XVal} : XVal.posInf ≤ a ↔ a = XVal.posInf := by
  cases a <;> simp [XVal.le_def, XVal.leb]

/-! ### Basic facts about the board operations -/

theorem Board.duplicate_eq {b : Board} (h : b.board ≠ []) : b.duplicate = b := by
  obtain ⟨s, l⟩ := b
  cases l with
  | nil => exact absurd rfl h
  | cons x xs => rfl

theorem mem_emptyGridsBase {b : Board} {g : Nat} :
    g ∈ emptyGridsBase b ↔ g < b.board.length ∧ b.board.getD g none = none := by
  simp [emptyGridsBase, List.mem_filter, List.mem_range]

theorem countP_set_occupied :
    ∀ (l : List (Option Player)) (i : Nat) (p : Player), i < l.length →
      l.getD i none = none →
      (l.set i (some p)).countP (fun e => e == none) + 1 = l.countP (fun e => e == none) := by
  intro l
  induction l with
  | nil => intro i p hi _; simp at hi
  | cons x xs ih =>
    intro i p hi hx
    cases i with
    | zero =>
      simp only [List.getD_cons_zero] at hx
      subst hx
      simp [List.countP_cons]
    | succ j =>
      have hj : j < xs.length := by simpa using hi
      have hxj : xs.getD j none = none := by simpa using hx
      have := ih j p hj hxj
      simp only [List.set_cons_succ, List.countP_cons]
      omega

theorem find_num_empty_place {b : Board} {g : Nat} (p : Player)
    (hg : g < b.board.length) (he : b.board.getD g none = none) :
    ((b.duplicate).place g p).find_num_empty + 1 = b.find_num_empty := by
  have hne : b.board ≠ [] := by
    intro h
    rw [h] at hg
    simp at hg
  rw [Board.duplicate_eq hne]
  simpa [Board.place, Board.find_num_empty] using countP_set_occupied b.board g p hg he

theorem evaluate_of_full {b : Board} (h : b.find_num_empty = 0) : evaluate b = some 0 := by
  simp [evaluate, h]

theorem find_num_empty_pos_of_evaluate_none {b : Board} (h : evaluate b = none) :
    b.find_num_empty ≠ 0 := by
  intro h0
  rw [evaluate_of_full h0] at h
  exact Option.noConfusion h

theorem emptyGridsBase_ne_nil {b : Board} (h : b.find_num_empty ≠ 0) :
    emptyGridsBase b ≠ [] := by
  have hpos : 0 < b.board.countP (fun e => e == none) :=
    Nat.pos_of_ne_zero h
  obtain ⟨x, hx, hxn⟩ := List.countP_pos.mp hpos
  obtain ⟨i, hi, hget⟩ := List.mem_iff_getElem.mp hx
  have hgx : x = none := by simpa using hxn
  have hmem : i ∈ emptyGridsBase b := by
    rw [mem_emptyGridsBase]
    refine ⟨hi, ?_⟩
    rw [List.getD_eq_getElem b.board none hi, hget, hgx]
  exact List.ne_nil_of_mem hmem

/-! ### Facts about folded maxima and minima over `XVal` -/

theorem le_foldl_max : ∀ (l : List XVal) (a : XVal), a ≤ l.foldl max a := by
  intro l
  induction l with
  | nil => intro a; exact le_refl a
  | cons x xs ih =>
    intro a
    exact le_trans (le_max_left a x) (ih (max a x))

theorem foldl_max_mono : ∀ (l : List XVal) (a b : XVal), a ≤ b → l.foldl max a ≤ l.foldl max b := by
  intro l
  induction l with
  | nil => intro a b h; exact h
  | cons x xs ih =>
    intro a b h
    exact ih _ _ (max_le_max h (le_refl x))

theorem foldl_max_absorb : ∀ (l : List XVal) (a b : XVal), l.foldl max (max a b) = max a (l.foldl max b) := by
  intro l
  induction l with
  | nil => intro a b; rfl
  | cons x xs ih =>
    intro a b
    simp only [List.foldl_cons]
    rw [max_assoc, ih]

theorem foldl_max_split (l : List XVal) (a : XVal) :
    l.foldl max a = max a (l.foldl max XVal.negInf) := by
  have h : max a XVal.negInf = a := max_eq_left (XVal.negInf_le a)
  calc l.foldl max a = l.foldl max (max a XVal.negInf) := by rw [h]
    _ = max a (l.foldl max XVal.negInf) := foldl_max_absorb l a XVal.negInf

theorem foldl_max_perm {l m : List XVal} (h : l.Perm m) :
    ∀ a : XVal, l.foldl max a = m.foldl max a := by
  induction h with
  | nil => intro a; rfl
  | cons x _ ih => intro a; simp only [List.foldl_cons]; exact ih _
  | swap x y l => intro a; simp only [List.foldl_cons]; rw [max_assoc, max_comm y x, ← max_assoc]
  | trans _ _ ih1 ih2 => intro a; rw [ih1 a, ih2 a]

theorem foldl_min_le : ∀ (l : List XVal) (a : XVal), l.foldl min a ≤ a := by
  intro l
  induction l with
  | nil => intro a; exact le_refl a
  | cons x xs ih =>
    intro a
    exact le_trans (ih (min a x)) (min_le_left a x)

theorem foldl_min_mono : ∀ (l : List XVal) (a b : XVal), a ≤ b → l.foldl min a ≤ l.foldl min b := by
  intro l
  induction l with
  | nil => intro a b h; exact h
  | cons x xs ih =>
    intro a b h
    exact ih _ _ (min_le_min h (le_refl x))

theorem foldl_min_absorb : ∀ (l : List XVal) (a b : XVal), l.foldl min (min a b) = min a (l.foldl min b) := by
  intro l
  induction l with
  | nil => intro a b; rfl
  | cons x xs ih =>
    intro a b
    simp only [List.foldl_cons]
    rw [min_assoc, ih]

theorem foldl_min_split (l : List XVal) (a : XVal) :
    l.foldl min a = min a (l.foldl min XVal.posInf) := by
  have h : min a XVal.posInf = a := min_eq_left (XVal.le_posInf a)
  calc l.foldl min a = l.foldl min (min a XVal.posInf) := by rw [h]
    _ = min a (l.foldl min XVal.posInf) := foldl_min_absorb l a XVal.posInf

theorem foldl_min_perm {l m : List XVal} (h : l.Perm m) :
    ∀ a : XVal, l.foldl min a = m.foldl min a := by
  induction h with
  | nil => intro a; rfl
  | cons x _ ih => intro a; simp only [List.foldl_cons]; exact ih _
  | swap x y l => intro a; simp only [List.foldl_cons]; rw [min_assoc, min_comm y x, ← min_assoc]
  | trans _ _ ih1 ih2 => intro a; rw [ih1 a, ih2 a]

theorem WProp_self (g alpha beta : XVal) : WProp g g alpha beta :=
  ⟨fun _ => le_refl g, fun _ _ => rfl, fun _ => le_refl g⟩

/-! ### The alpha-beta window invariant -/

theorem maxLoop_w
    (rec : Board → Player → XVal → XVal → XVal × Option Board) (b : Board) (f : Nat)
    (hrec : ∀ (bc : Board) (alpha beta : XVal), bc.find_num_empty = f → alpha < beta →
      WProp (rec bc (switch Player.O) alpha beta).1 (mmGo f bc (switch Player.O)) alpha beta)
    (hb : b.find_num_empty = f + 1) :
    ∀ (rest : List Nat) (alpha beta best : XVal) (bb : Option Board),
      (∀ g ∈ rest, g < b.board.length ∧ b.board.getD g none = none) →
      alpha < beta → best ≤ alpha →
      best ≤ (maxLoop rec b Player.O rest alpha beta best bb).1 ∧
      WProp (maxLoop rec b Player.O rest alpha beta best bb).1
        ((rest.map fun x => mmGo f ((b.duplicate).place x Player.O) (switch Player.O)).foldl
          max best)
        alpha beta := by
  intro rest
  induction rest with
  | nil =>
    intro alpha beta best bb _ _ _
    exact ⟨le_refl _, WProp_self _ _ _⟩
  | cons g rest ih =>
    intro alpha beta best bb hmem hab hba
    obtain ⟨hg, hge⟩ := hmem g (List.mem_cons_self g rest)
    have hmem2 : ∀ x ∈ rest, x < b.board.length ∧ b.board.getD x none = none :=
      fun x hx => hmem x (List.mem_cons_of_mem g hx)
    have hcount : ((b.duplicate).place g Player.O).find_num_empty = f := by
      have := find_num_empty_place Player.O hg hge
      omega
    set bn := (b.duplicate).place g Player.O with hbn
    set rn := (rec bn (switch Player.O) alpha beta).1 with hrn
    set m1 := mmGo f bn (switch Player.O) with hm1
    obtain ⟨W1, W2, W3⟩ := hrec bn alpha beta hcount hab
    set F := (rest.map fun x => mmGo f ((b.duplicate).place x Player.O) (switch Player.O)).foldl
      max XVal.negInf with hF
    have hM : ((g :: rest).map fun x =>
          mmGo f ((b.duplicate).place x Player.O) (switch Player.O)).foldl max best
        = max best (max m1 F) := by
      simp only [List.map_cons, List.foldl_cons]
      rw [foldl_max_absorb, foldl_max_split]
    have hstep : maxLoop rec b Player.O (g :: rest) alpha beta best bb =
        if beta ≤ (if best < rn then max alpha rn else alpha) then
          ((if best < rn then rn else best), (if best < rn then some bn else bb))
        else maxLoop rec b Player.O rest (if best < rn then max alpha rn else alpha) beta
          (if best < rn then rn else best) (if best < rn then some bn else bb) := rfl
    rw [hstep, hM]
    have hnba : ¬ beta ≤ alpha := not_le.mpr hab
    by_cases himp : best < rn
    · simp only [if_pos himp]
      by_cases hcut : beta ≤ max alpha rn
      · simp only [if_pos hcut]
        have hbrn : beta ≤ rn := by
          rcases max_choice alpha rn with h | h
          · rw [h] at hcut; exact absurd hcut hnba
          · rw [h] at hcut; exact hcut
        have hrm : rn ≤ m1 := W3 hbrn
        refine ⟨le_of_lt himp, ?_, ?_, ?_⟩
        · intro hra
          exact absurd (hbrn.trans hra) hnba
        · intro _ hrb
          exact absurd hrb (not_lt.mpr hbrn)
        · intro _
          exact le_trans hrm (le_trans (le_max_left m1 F) (le_max_right best (max m1 F)))
      · simp only [if_neg hcut]
        have hab2 : max alpha rn < beta := not_le.mp hcut
        have hba2 : rn ≤ max alpha rn := le_max_right alpha rn
        obtain ⟨LA, V1, V2, V3⟩ := ih (max alpha rn) beta rn (some bn) hmem2 hab2 hba2
        rw [foldl_max_split] at V1 V2 V3
        rcases le_or_lt rn alpha with hra | har
        · have hm1rn : m1 ≤ rn := W1 hra
          have hmaxa : max alpha rn = alpha := max_eq_left hra
          rw [hmaxa] at LA V1 V2 V3 ⊢
          refine ⟨le_trans (le_of_lt himp) LA, ?_, ?_, ?_⟩
          · intro hrle
            have h5 := V1 hrle
            have hble : best ≤ max rn F := le_trans (le_of_lt himp) (le_max_left rn F)
            have hm1le : m1 ≤ max rn F := le_trans hm1rn (le_max_left rn F)
            exact le_trans (max_le hble (max_le hm1le (le_max_right rn F))) h5
          · intro halr hrb
            have h5 := V2 halr hrb
            have hFeq : max rn F = F := by
              rcases max_choice rn F with h | h
              · exfalso
                rw [h] at h5
                rw [h5] at halr
                exact absurd halr (not_lt.mpr hra)
              · exact h
            have hrF : (maxLoop rec b Player.O rest alpha beta rn (some bn)).1 = F := by
              rw [h5, hFeq]
            have h2 : m1 ≤ F := by
              have : alpha < F := by rw [← hrF]; exact halr
              exact le_trans hm1rn (le_trans hra (le_of_lt this))
            have h1 : best ≤ F := by
              have : alpha < F := by rw [← hrF]; exact halr
              exact le_trans (le_of_lt himp) (le_trans hra (le_of_lt this))
            rw [hrF, max_eq_right h2, max_eq_right h1]
          · intro hbr
            have h5 := V3 hbr
            have hrnr : rn < (maxLoop rec b Player.O rest alpha beta rn (some bn)).1 :=
              lt_of_le_of_lt hra (lt_of_lt_of_le hab hbr)
            have hrF : (maxLoop rec b Player.O rest alpha beta rn (some bn)).1 ≤ F := by
              rcases max_choice rn F with h | h
              · rw [h] at h5; exact absurd h5 (not_le.mpr hrnr)
              · rw [h] at h5; exact h5
            exact le_trans hrF (le_trans (le_max_right m1 F) (le_max_right best (max m1 F)))
        · have hrnb : rn < beta := lt_of_le_of_lt hba2 hab2
          have hem1 : rn = m1 := W2 har hrnb
          have hmaxr : max alpha rn = rn := max_eq_right (le_of_lt har)
          rw [hmaxr] at LA V1 V2 V3 ⊢
          have hMM : max best (max m1 F) = max rn F := by
            rw [← hem1]
            exact max_eq_right (le_trans (le_of_lt himp) (le_max_left rn F))
          rw [hMM]
          refine ⟨le_trans (le_of_lt himp) LA, ?_, ?_, ?_⟩
          · intro hrle
            exact absurd (le_trans LA hrle) (not_le.mpr har)
          · intro halr hrb
            rcases lt_or_le rn ((maxLoop rec b Player.O rest rn beta rn (some bn)).1) with hlt | hle
            · exact V2 hlt hrb
            · have hreq : (maxLoop rec b Player.O rest rn beta rn (some bn)).1 = rn :=
                le_antisymm hle LA
              have h6 : max rn F ≤ _ := V1 (le_of_eq hreq)
              refine le_antisymm ?_ h6
              rw [hreq]
              exact le_max_left rn F
          · intro hbr
            exact V3 hbr
    · simp only [if_neg himp, if_neg hnba]
      have hrnb : rn ≤ best := not_lt.mp himp
      have hm1b : m1 ≤ rn := W1 (le_trans hrnb hba)
      obtain ⟨LA, V1, V2, V3⟩ := ih alpha beta best bb hmem2 hab hba
      rw [foldl_max_split] at V1 V2 V3
      have hMM : max best (max m1 F) = max best F := by
        rw [← max_assoc, max_eq_left (le_trans hm1b hrnb)]
      rw [hMM]
      exact ⟨LA, V1, V2, V3⟩

theorem minLoop_w
    (rec : Board → Player → XVal → XVal → XVal × Option Board) (b : Board) (f : Nat)
    (hrec : ∀ (bc : Board) (alpha beta : XVal), bc.find_num_empty = f → alpha < beta →
      WProp (rec bc (switch Player.X) alpha beta).1 (mmGo f bc (switch Player.X)) alpha beta)
    (hb : b.find_num_empty = f + 1) :
    ∀ (rest : List Nat) (alpha beta best : XVal) (bb : Option Board),
      (∀ g ∈ rest, g < b.board.length ∧ b.board.getD g none = none) →
      alpha < beta → beta ≤ best →
      (minLoop rec b Player.X rest alpha beta best bb).1 ≤ best ∧
      WProp (minLoop rec b Player.X rest alpha beta best bb).1
        ((rest.map fun x => mmGo f ((b.duplicate).place x Player.X) (switch Player.X)).foldl
          min best)
        alpha beta := by
  intro rest
  induction rest with
  | nil =>
    intro alpha beta best bb _ _ _
    exact ⟨le_refl _, WProp_self _ _ _⟩
  | cons g rest ih =>
    intro alpha beta best bb hmem hab hbb
    obtain ⟨hg, hge⟩ := hmem g (List.mem_cons_self g rest)
    have hmem2 : ∀ x ∈ rest, x < b.board.length ∧ b.board.getD x none = none :=
      fun x hx => hmem x (List.mem_cons_of_mem g hx)
    have hcount : ((b.duplicate).place g Player.X).find_num_empty = f := by
      have := find_num_empty_place Player.X hg hge
      omega
    set bn := (b.duplicate).place g Player.X with hbn
    set rn := (rec bn (switch Player.X) alpha beta).1 with hrn
    set m1 := mmGo f bn (switch Player.X) with hm1
    obtain ⟨W1, W2, W3⟩ := hrec bn alpha beta hcount hab
    set F := (rest.map fun x => mmGo f ((b.duplicate).place x Player.X) (switch Player.X)).foldl
      min XVal.posInf with hF
    have hM : ((g :: rest).map fun x =>
          mmGo f ((b.duplicate).place x Player.X) (switch Player.X)).foldl min best
        = min best (min m1 F) := by
      simp only [List.map_cons, List.foldl_cons]
      rw [foldl_min_absorb, foldl_min_split]
    have hstep : minLoop rec b Player.X (g :: rest) alpha beta best bb =
        if (if rn < best then min beta rn else beta) ≤ alpha then
          ((if rn < best then rn else best), (if rn < best then some bn else bb))
        else minLoop rec b Player.X rest alpha (if rn < best then min beta rn else beta)
          (if rn < best then rn else best) (if rn < best then some bn else bb) := rfl
    rw [hstep, hM]
    have hnba : ¬ beta ≤ alpha := not_le.mpr hab
    by_cases himp : rn < best
    · simp only [if_pos himp]
      by_cases hcut : min beta rn ≤ alpha
      · simp only [if_pos hcut]
        have hrna : rn ≤ alpha := by
          rcases min_choice beta rn with h | h
          · rw [h] at hcut; exact absurd hcut hnba
          · rw [h] at hcut; exact hcut
        have hmr : m1 ≤ rn := W1 hrna
        refine ⟨le_of_lt himp, ?_, ?_, ?_⟩
        · intro _
          exact le_trans (le_trans (min_le_right best (min m1 F)) (min_le_left m1 F)) hmr
        · intro halr _
          exact absurd halr (not_lt.mpr hrna)
        · intro hbr
          exact absurd hbr (not_le.mpr (lt_of_le_of_lt hrna hab))
      · simp only [if_neg hcut]
        have hab2 : alpha < min beta rn := not_le.mp hcut
        have hbb2 : min beta rn ≤ rn := min_le_right beta rn
        obtain ⟨LA, V1, V2, V3⟩ := ih alpha (min beta rn) rn (some bn) hmem2 hab2 hbb2
        rw [foldl_min_split] at V1 V2 V3
        rcases le_or_lt beta rn with hbrn | hrb
        · have hrm1 : rn ≤ m1 := W3 hbrn
          have hminb : min beta rn = beta := min_eq_left hbrn
          rw [hminb] at LA V1 V2 V3 ⊢
          refine ⟨le_trans LA (le_of_lt himp), ?_, ?_, ?_⟩
          · intro hrle
            have h5 := V1 hrle
            have hrnr : (minLoop rec b Player.X rest alpha beta rn (some bn)).1 < rn :=
              lt_of_le_of_lt hrle (lt_of_lt_of_le hab hbrn)
            have hFr : F ≤ (minLoop rec b Player.X rest alpha beta rn (some bn)).1 := by
              rcases min_choice rn F with h | h
              · rw [h] at h5; exact absurd h5 (not_le.mpr hrnr)
              · rw [h] at h5; exact h5
            exact le_trans (le_trans (min_le_right best (min m1 F)) (min_le_right m1 F)) hFr
          · intro halr hrb2
            have h5 := V2 halr hrb2
            have hFeq : min rn F = F := by
              rcases min_choice rn F with h | h
              · exfalso
                rw [h] at h5
                rw [h5] at hrb2
                exact absurd hrb2 (not_lt.mpr hbrn)
              · exact h
            have hrF : (minLoop rec b Player.X rest alpha beta rn (some bn)).1 = F := by
              rw [h5, hFeq]
            have hFb : F < beta := by rw [← hrF]; exact hrb2
            have h2 : F ≤ m1 := le_of_lt (lt_of_lt_of_le hFb (le_trans hbrn hrm1))
            have h1 : F ≤ best := le_of_lt (lt_of_lt_of_le hFb (le_trans hbrn (le_of_lt himp)))
            rw [hrF, min_eq_right h2, min_eq_right h1]
          · intro hbr
            have h5 := V3 hbr
            have hrrn : (minLoop rec b Player.X rest alpha beta rn (some bn)).1 ≤ rn :=
              le_trans h5 (min_le_left rn F)
            exact le_min (le_trans hrrn (le_of_lt himp))
              (le_min (le_trans hrrn hrm1) (le_trans h5 (min_le_right rn F)))
        · have har : alpha < rn := lt_of_lt_of_le hab2 hbb2
          have hem1 : rn = m1 := W2 har hrb
          have hminr : min beta rn = rn := min_eq_right (le_of_lt hrb)
          rw [hminr] at LA V1 V2 V3 ⊢
          have hMM : min best (min m1 F) = min rn F := by
            rw [← hem1]
            exact min_eq_right (le_trans (min_le_left rn F) (le_of_lt himp))
          rw [hMM]
          refine ⟨le_trans LA (le_of_lt himp), ?_, ?_, ?_⟩
          · intro hrle
            exact V1 hrle
          · intro halr hrb2
            rcases lt_or_le ((minLoop rec b Player.X rest alpha rn rn (some bn)).1) rn with hlt | hle
            · exact V2 halr hlt
            · have hreq : (minLoop rec b Player.X rest alpha rn rn (some bn)).1 = rn :=
                le_antisymm LA hle
              have h6 := V3 (le_of_eq hreq.symm)
              refine le_antisymm h6 ?_
              rw [hreq]
              exact min_le_left rn F
          · intro hbr
            exact absurd hbr (not_le.mpr (lt_of_le_of_lt LA hrb))
    · simp only [if_neg himp, if_neg hnba]
      have hbrn : best ≤ rn := not_lt.mp himp
      have hm1b : rn ≤ m1 := W3 (le_trans hbb hbrn)
      obtain ⟨LA, V1, V2, V3⟩ := ih alpha beta best bb hmem2 hab hbb
      rw [foldl_min_split] at V1 V2 V3
      have hMM : min best (min m1 F) = min best F := by
        rw [← min_assoc, min_eq_left (le_trans hbrn hm1b)]
      rw [hMM]
      exact ⟨LA, V1, V2, V3⟩

theorem minimaxGo_terminal (sh : Shuffler) (fuel : Nat) (b : Board) (p : Player)
    (alpha beta : XVal) {v : Int} (he : evaluate b = some v) :
    minimaxGo sh fuel b p alpha beta = (XVal.fin v, some b) := by
  cases fuel with
  | zero => simp [minimaxGo, he]
  | succ f => simp [minimaxGo, he]

theorem minimaxGo_step_O (sh : Shuffler) (f : Nat) (b : Board) (alpha beta : XVal)
    (he : evaluate b = none) :
    minimaxGo sh (f + 1) b Player.O alpha beta =
      maxLoop (minimaxGo sh f) b Player.O (b.find_empty_grids sh) alpha beta XVal.negInf none := by
  simp [minimaxGo, he]

theorem minimaxGo_step_X (sh : Shuffler) (f : Nat) (b : Board) (alpha beta : XVal)
    (he : evaluate b = none) :
    minimaxGo sh (f + 1) b Player.X alpha beta =
      minLoop (minimaxGo sh f) b Player.X (b.find_empty_grids sh) alpha beta XVal.posInf none := by
  simp [minimaxGo, he]

theorem mmGo_terminal (fuel : Nat) (b : Board) (p : Player) {v : Int}
    (he : evaluate b = some v) : mmGo fuel b p = XVal.fin v := by
  cases fuel with
  | zero => simp [mmGo, he]
  | succ f => simp [mmGo, he]

theorem mmGo_step_O (f : Nat) (b : Board) (he : evaluate b = none) :
    mmGo (f + 1) b Player.O =
      ((emptyGridsBase b).map fun g =>
        mmGo f ((b.duplicate).place g Player.O) (switch Player.O)).foldl max XVal.negInf := by
  simp [mmGo, he]

theorem mmGo_step_X (f : Nat) (b : Board) (he : evaluate b = none) :
    mmGo (f + 1) b Player.X =
      ((emptyGridsBase b).map fun g =>
        mmGo f ((b.duplicate).place g Player.X) (switch Player.X)).foldl min XVal.posInf := by
  simp [mmGo, he]

theorem minimaxGo_w (sh : Shuffler) :
    ∀ (fuel : Nat) (b : Board) (p : Player) (alpha beta : XVal),
      b.find_num_empty = fuel → alpha < beta →
      WProp (minimaxGo sh fuel b p alpha beta).1 (mmGo fuel b p) alpha beta := by
  intro fuel
  induction fuel with
  | zero =>
    intro b p alpha beta hb _
    have he : evaluate b = some 0 := evaluate_of_full hb
    rw [minimaxGo_terminal sh 0 b p alpha beta he, mmGo_terminal 0 b p he]
    exact WProp_self _ _ _
  | succ f ih =>
    intro b p alpha beta hb hab
    cases he : evaluate b with
    | some v =>
      rw [minimaxGo_terminal sh (f + 1) b p alpha beta he, mmGo_terminal (f + 1) b p he]
      exact WProp_self _ _ _
    | none =>
      have hmem : ∀ g ∈ b.find_empty_grids sh,
          g < b.board.length ∧ b.board.getD g none = none := by
        intro g hgrids
        exact mem_emptyGridsBase.mp (((sh (emptyGridsBase b)).2).mem_iff.mp hgrids)
      cases p with
      | O =>
        have hml := maxLoop_w (minimaxGo sh f) b f
          (fun bc a2 b2 hbc hab2 => ih bc (switch Player.O) a2 b2 hbc hab2)
          hb (b.find_empty_grids sh) alpha beta XVal.negInf none hmem hab
          (XVal.negInf_le alpha)
        have hperm : (((b.find_empty_grids sh)).map fun x =>
              mmGo f ((b.duplicate).place x Player.O) (switch Player.O)).Perm
            ((emptyGridsBase b).map fun x =>
              mmGo f ((b.duplicate).place x Player.O) (switch Player.O)) :=
          List.Perm.map _ (sh (emptyGridsBase b)).2
        rw [minimaxGo_step_O sh f b alpha beta he, mmGo_step_O f b he,
          ← foldl_max_perm hperm XVal.negInf]
        exact hml.2
      | X =>
        have hml := minLoop_w (minimaxGo sh f) b f
          (fun bc a2 b2 hbc hab2 => ih bc (switch Player.X) a2 b2 hbc hab2)
          hb (b.find_empty_grids sh) alpha beta XVal.posInf none hmem hab
          (XVal.le_posInf beta)
        have hperm : (((b.find_empty_grids sh)).map fun x =>
              mmGo f ((b.duplicate).place x Player.X) (switch Player.X)).Perm
            ((emptyGridsBase b).map fun x =>
              mmGo f ((b.duplicate).place x Player.X) (switch Player.X)) :=
          List.Perm.map _ (sh (emptyGridsBase b)).2
        rw [minimaxGo_step_X sh f b alpha beta he, mmGo_step_X f b he,
          ← foldl_min_perm hperm XVal.posInf]
        exact hml.2

/-! ### Claim C1 -/

/-- Root-window soundness of the pruned search against the unpruned value,
for an arbitrary enumeration policy. -/
theorem AI_minimax_root_value (sh : Shuffler) (b : Board) (p : Player) :
    (AI.minimax sh b p XVal.negInf XVal.posInf).1 = mmValue b p := by
  obtain ⟨W1, W2, W3⟩ :=
    minimaxGo_w sh b.find_num_empty b p XVal.negInf XVal.posInf rfl XVal.negInf_lt_posInf
  show (minimaxGo sh b.find_num_empty b p XVal.negInf XVal.posInf).1 = mmGo b.find_num_empty b p
  cases hg : (minimaxGo sh b.find_num_empty b p XVal.negInf XVal.posInf).1 with
  | negInf =>
    have hm := W1 (le_of_eq hg)
    rw [hg] at hm
    exact (XVal.le_negInf_iff.mp hm).symm
  | fin n =>
    have h1 : XVal.negInf < (minimaxGo sh b.find_num_empty b p XVal.negInf XVal.posInf).1 := by
      rw [hg]; exact XVal.negInf_lt_fin n
    have h2 : (minimaxGo sh b.find_num_empty b p XVal.negInf XVal.posInf).1 < XVal.posInf := by
      rw [hg]; exact XVal.fin_lt_posInf n
    have := W2 h1 h2
    rw [hg] at this
    exact this
  | posInf =>
    have hps : XVal.posInf ≤ (minimaxGo sh b.find_num_empty b p XVal.negInf XVal.posInf).1 := by
      rw [hg]
    have hm := W3 hps
    rw [hg] at hm
    exact (XVal.posInf_le_iff.mp hm).symm

/-- C1: for every board at a size where `check_win` is exception-free (in
particular the default 3×3 game) and every player to move, the value returned
by `AI.minimax` at the root window `(-inf, +inf)` equals the brute-force
unpruned full-tree minimax value `mmValue` computed with the same terminal
evaluation; the enumeration policy `sh` (the shuffled empty-cell order) is
arbitrary, so the value is the same for every enumeration order. -/
theorem C1_search_value_eq_bruteforce (sh : Shuffler) (b : Board) (p : Player)
    (hsize : 2 ≤ b.size) :
    (AI.minimax sh b p XVal.negInf XVal.posInf).1 = mmValue b p :=
  AI_minimax_root_value sh b p

/-- Witness for C1 at the scenario-2 board with the identity enumeration. -/
theorem C1_search_value_eq_bruteforce_witness :
    2 ≤ bScenario2.size ∧
      (AI.minimax idShuffle bScenario2 Player.O XVal.negInf XVal.posInf).1 =
        mmValue bScenario2 Player.O :=
  ⟨by decide, C1_search_value_eq_bruteforce idShuffle bScenario2 Player.O (by decide)⟩

/-- On a terminal board (one where `evaluate` yields a value) the search
returns that value paired with the input board, at any window. -/
theorem AI_minimax_terminal (sh : Shuffler) (b : Board) (p : Player) (alpha beta : XVal)
    {v : Int} (he : evaluate b = some v) :
    AI.minimax sh b p alpha beta = (XVal.fin v, some b) :=
  minimaxGo_terminal sh b.find_num_empty b p alpha beta he

/-! ### Claims C2, C3, C5 -/

/-- C2 fails on the code at a board that is simultaneously full and contains a
winning line: the code tests fullness first, so `bFullOWin` (full, `O` owns
the top row) scores `0`, while the claim demands `countEmpty + 1 = 1`. -/
theorem C2_counterexample :
    bFullOWin.find_num_empty = 0 ∧ checkWinB bFullOWin Player.O = true ∧
      (AI.minimax idShuffle bFullOWin Player.O XVal.negInf XVal.posInf).1 = XVal.fin 0 ∧
      (0 : Int) ≠ (bFullOWin.find_num_empty : Int) + 1 :=
  ⟨by decide, by decide, by decide, by decide⟩

/-- C2 (amended): the terminal scores as the code computes them, at any
window and player to move: a full board — winning line or not — scores `0`
(this branch returns before any win check, so it needs no size guard); at
the exception-free sizes (`size ≥ 2`, where `check_win` does not raise — see
C9) a non-full board where `O` has a winning line scores
`countEmpty + 1 ≥ 1`, and a non-full board where `X` but not `O` has a
winning line scores `-(countEmpty + 1)`. -/
theorem C2_terminal_scoring (sh : Shuffler) (b : Board) (p : Player) (alpha beta : XVal) :
    (b.find_num_empty = 0 → (AI.minimax sh b p alpha beta).1 = XVal.fin 0) ∧
    (2 ≤ b.size → b.find_num_empty ≠ 0 → checkWinB b Player.O = true →
      (AI.minimax sh b p alpha beta).1 = XVal.fin ((b.find_num_empty : Int) + 1) ∧
        1 ≤ (b.find_num_empty : Int) + 1) ∧
    (2 ≤ b.size → b.find_num_empty ≠ 0 → checkWinB b Player.O = false →
      checkWinB b Player.X = true →
      (AI.minimax sh b p alpha beta).1 = XVal.fin (-((b.find_num_empty : Int) + 1))) := by
  refine ⟨?_, ?_, ?_⟩
  · intro h
    rw [AI_minimax_terminal sh b p alpha beta (evaluate_of_full h)]
  · intro _ h hO
    have he : evaluate b = some ((b.find_num_empty : Int) + 1) := by
      unfold evaluate
      rw [if_neg h, if_pos hO]
    refine ⟨by rw [AI_minimax_terminal sh b p alpha beta he], by omega⟩
  · intro _ h hOf hX
    have he : evaluate b = some (-((b.find_num_empty : Int) + 1)) := by
      unfold evaluate
      rw [if_neg h, if_neg (by simp [hOf]), if_pos hX]
    rw [AI_minimax_terminal sh b p alpha beta he]

/-- Witness for C2 (amended) on the full drawn board. -/
theorem C2_terminal_scoring_witness :
    bFullDraw.find_num_empty = 0 ∧
      (AI.minimax idShuffle bFullDraw Player.O XVal.negInf XVal.posInf).1 = XVal.fin 0 :=
  ⟨by decide,
    (C2_terminal_scoring idShuffle bFullDraw Player.O XVal.negInf XVal.posInf).1 (by decide)⟩

/-- C3 fails on the code: on the full (terminal) board `bFullDraw` the search
returns the input board itself as its second component, not an absent/None
move as the claim states. -/
theorem C3_counterexample :
    (AI.minimax idShuffle bFullDraw Player.O XVal.negInf XVal.posInf).2 = some bFullDraw ∧
      some bFullDraw ≠ (none : Option Board) :=
  ⟨by decide, by decide⟩

/-- C3 (amended): on every terminal board — full, or with a winning line for
either player — at an exception-free size (`size ≥ 2`, where `check_win`
does not raise — see C9), the search returns the terminal evaluation paired
with the input board itself (not an absent move), immediately and without
recursing. -/
theorem C3_terminal_returns_input_board (sh : Shuffler) (b : Board) (p : Player)
    (alpha beta : XVal) (hsize : 2 ≤ b.size)
    (hterm : b.find_num_empty = 0 ∨ checkWinB b Player.O = true ∨ checkWinB b Player.X = true) :
    ∃ v : Int, evaluate b = some v ∧
      AI.minimax sh b p alpha beta = (XVal.fin v, some b) := by
  have hev : ∃ v : Int, evaluate b = some v := by
    unfold evaluate
    split_ifs with h1 h2 h3
    · exact ⟨0, rfl⟩
    · exact ⟨_, rfl⟩
    · exact ⟨_, rfl⟩
    · rcases hterm with h | h | h
      · exact absurd h h1
      · exact absurd h h2
      · exact absurd h h3
  obtain ⟨v, he⟩ := hev
  exact ⟨v, he, AI_minimax_terminal sh b p alpha beta he⟩

/-- Witness for C3 (amended) on the full drawn board. -/
theorem C3_terminal_returns_input_board_witness :
    2 ≤ bFullDraw.size ∧
      (bFullDraw.find_num_empty = 0 ∨ checkWinB bFullDraw Player.O = true ∨
        checkWinB bFullDraw Player.X = true) ∧
      ∃ v : Int, evaluate bFullDraw = some v ∧
        AI.minimax idShuffle bFullDraw Player.O XVal.negInf XVal.posInf =
          (XVal.fin v, some bFullDraw) :=
  ⟨by decide, Or.inl (by decide),
    C3_terminal_returns_input_board idShuffle bFullDraw Player.O XVal.negInf XVal.posInf
      (by decide) (Or.inl (by decide))⟩

/-- C5 fails as stated: on the scenario-2 board the search value is `5`
(the resulting winning board has 4 empty cells, and 4+1 = 5), not the claimed
`6`. -/
theorem C5_counterexample :
    (AI.minimax idShuffle bScenario2 Player.O XVal.negInf XVal.posInf).1 = XVal.fin 5 ∧
      XVal.fin 5 ≠ XVal.fin 6 :=
  ⟨by decide, by decide⟩

/-! ### Shape of the returned board -/

theorem maxLoop_fin_good
    (rec : Board → Player → XVal → XVal → XVal × Option Board) (b : Board)
    (hrecfin : ∀ g, g < b.board.length → b.board.getD g none = none →
      ∀ alpha beta, ∃ n,
        (rec ((b.duplicate).place g Player.O) (switch Player.O) alpha beta).1 = XVal.fin n) :
    ∀ (rest : List Nat) (alpha beta best : XVal) (bb : Option Board),
      (∀ g ∈ rest, g < b.board.length ∧ b.board.getD g none = none) →
      (((∃ n, best = XVal.fin n) ∧ goodMove b Player.O bb) ∨
        (best = XVal.negInf ∧ bb = none ∧ rest ≠ [])) →
      (∃ n, (maxLoop rec b Player.O rest alpha beta best bb).1 = XVal.fin n) ∧
        goodMove b Player.O (maxLoop rec b Player.O rest alpha beta best bb).2 := by
  intro rest
  induction rest with
  | nil =>
    intro alpha beta best bb _ hstate
    rcases hstate with ⟨hfin, hgood⟩ | ⟨_, _, hne⟩
    · exact ⟨hfin, hgood⟩
    · exact absurd rfl hne
  | cons g rest ih =>
    intro alpha beta best bb hmem hstate
    obtain ⟨hg, hge⟩ := hmem g (List.mem_cons_self g rest)
    have hmem2 : ∀ x ∈ rest, x < b.board.length ∧ b.board.getD x none = none :=
      fun x hx => hmem x (List.mem_cons_of_mem g hx)
    set bn := (b.duplicate).place g Player.O with hbn
    set rn := (rec bn (switch Player.O) alpha beta).1 with hrn
    obtain ⟨n, hfinn⟩ := hrecfin g hg hge alpha beta
    have hstep : maxLoop rec b Player.O (g :: rest) alpha beta best bb =
        if beta ≤ (if best < rn then max alpha rn else alpha) then
          ((if best < rn then rn else best), (if best < rn then some bn else bb))
        else maxLoop rec b Player.O rest (if best < rn then max alpha rn else alpha) beta
          (if best < rn then rn else best) (if best < rn then some bn else bb) := rfl
    rw [hstep]
    have hgoodbn : goodMove b Player.O (some bn) := ⟨g, hg, hge, rfl⟩
    by_cases himp : best < rn
    · simp only [if_pos himp]
      by_cases hcut : beta ≤ max alpha rn
      · simp only [if_pos hcut]
        exact ⟨⟨n, hfinn⟩, hgoodbn⟩
      · simp only [if_neg hcut]
        exact ih (max alpha rn) beta rn (some bn) hmem2 (Or.inl ⟨⟨n, hfinn⟩, hgoodbn⟩)
    · rcases hstate with ⟨hfin, hgood⟩ | ⟨hbest, _, _⟩
      · simp only [if_neg himp]
        by_cases hcut : beta ≤ alpha
        · simp only [if_pos hcut]
          exact ⟨hfin, hgood⟩
        · simp only [if_neg hcut]
          exact ih alpha beta best bb hmem2 (Or.inl ⟨hfin, hgood⟩)
      · exfalso
        rw [hbest, hrn, hfinn] at himp
        exact himp (XVal.negInf_lt_fin n)

theorem minLoop_fin_good
    (rec : Board → Player → XVal → XVal → XVal × Option Board) (b : Board)
    (hrecfin : ∀ g, g < b.board.length → b.board.getD g none = none →
      ∀ alpha beta, ∃ n,
        (rec ((b.duplicate).place g Player.X) (switch Player.X) alpha beta).1 = XVal.fin n) :
    ∀ (rest : List Nat) (alpha beta best : XVal) (bb : Option Board),
      (∀ g ∈ rest, g < b.board.length ∧ b.board.getD g none = none) →
      (((∃ n, best = XVal.fin n) ∧ goodMove b Player.X bb) ∨
        (best = XVal.posInf ∧ bb = none ∧ rest ≠ [])) →
      (∃ n, (minLoop rec b Player.X rest alpha beta best bb).1 = XVal.fin n) ∧
        goodMove b Player.X (minLoop rec b Player.X rest alpha beta best bb).2 := by
  intro rest
  induction rest with
  | nil =>
    intro alpha beta best bb _ hstate
    rcases hstate with ⟨hfin, hgood⟩ | ⟨_, _, hne⟩
    · exact ⟨hfin, hgood⟩
    · exact absurd rfl hne
  | cons g rest ih =>
    intro alpha beta best bb hmem hstate
    obtain ⟨hg, hge⟩ := hmem g (List.mem_cons_self g rest)
    have hmem2 : ∀ x ∈ rest, x < b.board.length ∧ b.board.getD x none = none :=
      fun x hx => hmem x (List.mem_cons_of_mem g hx)
    set bn := (b.duplicate).place g Player.X with hbn
    set rn := (rec bn (switch Player.X) alpha beta).1 with hrn
    obtain ⟨n, hfinn⟩ := hrecfin g hg hge alpha beta
    have hstep : minLoop rec b Player.X (g :: rest) alpha beta best bb =
        if (if rn < best then min beta rn else beta) ≤ alpha then
          ((if rn < best then rn else best), (if rn < best then some bn else bb))
        else minLoop rec b Player.X rest alpha (if rn < best then min beta rn else beta)
          (if rn < best then rn else best) (if rn < best then some bn else bb) := rfl
    rw [hstep]
    have hgoodbn : goodMove b Player.X (some bn) := ⟨g, hg, hge, rfl⟩
    by_cases himp : rn < best
    · simp only [if_pos himp]
      by_cases hcut : min beta rn ≤ alpha
      · simp only [if_pos hcut]
        exact ⟨⟨n, hfinn⟩, hgoodbn⟩
      · simp only [if_neg hcut]
        exact ih alpha (min beta rn) rn (some bn) hmem2 (Or.inl ⟨⟨n, hfinn⟩, hgoodbn⟩)
    · rcases hstate with ⟨hfin, hgood⟩ | ⟨hbest, _, _⟩
      · simp only [if_neg himp]
        by_cases hcut : beta ≤ alpha
        · simp only [if_pos hcut]
          exact ⟨hfin, hgood⟩
        · simp only [if_neg hcut]
          exact ih alpha beta best bb hmem2 (Or.inl ⟨hfin, hgood⟩)
      · exfalso
        rw [hbest, hrn, hfinn] at himp
        exact himp (XVal.fin_lt_posInf n)

theorem find_empty_grids_ne_nil {b : Board} (sh : Shuffler) (h : b.find_num_empty ≠ 0) :
    b.find_empty_grids sh ≠ [] := by
  intro hnil
  have hperm := (sh (emptyGridsBase b)).2
  rw [Board.find_empty_grids] at hnil
  rw [hnil] at hperm
  exact emptyGridsBase_ne_nil h (hperm.symm.eq_nil)

theorem minimaxGo_fin_good (sh : Shuffler) :
    ∀ (fuel : Nat) (b : Board) (p : Player) (alpha beta : XVal),
      b.find_num_empty = fuel →
      (∃ n, (minimaxGo sh fuel b p alpha beta).1 = XVal.fin n) ∧
        (evaluate b = none → goodMove b p (minimaxGo sh fuel b p alpha beta).2) := by
  intro fuel
  induction fuel with
  | zero =>
    intro b p alpha beta hb
    have he : evaluate b = some 0 := evaluate_of_full hb
    rw [minimaxGo_terminal sh 0 b p alpha beta he]
    exact ⟨⟨0, rfl⟩, fun hn => Option.noConfusion (he.symm.trans hn)⟩
  | succ f ih =>
    intro b p alpha beta hb
    cases he : evaluate b with
    | some v =>
      rw [minimaxGo_terminal sh (f + 1) b p alpha beta he]
      exact ⟨⟨v, rfl⟩, fun hn => Option.noConfusion hn⟩
    | none =>
      have hmem : ∀ g ∈ b.find_empty_grids sh,
          g < b.board.length ∧ b.board.getD g none = none := by
        intro g hgrids
        exact mem_emptyGridsBase.mp (((sh (emptyGridsBase b)).2).mem_iff.mp hgrids)
      have hne : b.find_empty_grids sh ≠ [] :=
        find_empty_grids_ne_nil sh (find_num_empty_pos_of_evaluate_none he)
      cases p with
      | O =>
        have hrecfin : ∀ g, g < b.board.length → b.board.getD g none = none →
            ∀ a2 b2, ∃ n,
              (minimaxGo sh f ((b.duplicate).place g Player.O) (switch Player.O) a2 b2).1 =
                XVal.fin n := by
          intro g hg hge a2 b2
          have hc : ((b.duplicate).place g Player.O).find_num_empty = f := by
            have := find_num_empty_place Player.O hg hge
            omega
          exact (ih ((b.duplicate).place g Player.O) (switch Player.O) a2 b2 hc).1
        have h := maxLoop_fin_good (minimaxGo sh f) b hrecfin (b.find_empty_grids sh)
          alpha beta XVal.negInf none hmem (Or.inr ⟨rfl, rfl, hne⟩)
        rw [minimaxGo_step_O sh f b alpha beta he]
        exact ⟨h.1, fun _ => h.2⟩
      | X =>
        have hrecfin : ∀ g, g < b.board.length → b.board.getD g none = none →
            ∀ a2 b2, ∃ n,
              (minimaxGo sh f ((b.duplicate).place g Player.X) (switch Player.X) a2 b2).1 =
                XVal.fin n := by
          intro g hg hge a2 b2
          have hc : ((b.duplicate).place g Player.X).find_num_empty = f := by
            have := find_num_empty_place Player.X hg hge
            omega
          exact (ih ((b.duplicate).place g Player.X) (switch Player.X) a2 b2 hc).1
        have h := minLoop_fin_good (minimaxGo sh f) b hrecfin (b.find_empty_grids sh)
          alpha beta XVal.posInf none hmem (Or.inr ⟨rfl, rfl, hne⟩)
        rw [minimaxGo_step_X sh f b alpha beta he]
        exact ⟨h.1, fun _ => h.2⟩

/-! ### Claim C10 -/

/-- C10: the search never touches the board it is handed — every placement
happens on a `duplicate` copy, which is what the value-level equation below
expresses: on a non-terminal board (at an exception-free size) the returned
board is the input board with exactly one formerly-empty, in-range cell now
holding the mover's mark, the input board's cell list appearing unchanged
underneath the single `set`. -/
theorem C10_frame_and_shape (sh : Shuffler) (b : Board) (p : Player) (alpha beta : XVal)
    (hsize : 2 ≤ b.size) (hnt : evaluate b = none) :
    ∃ g, g < b.board.length ∧ b.board.getD g none = none ∧
      (AI.minimax sh b p alpha beta).2 = some ⟨b.size, b.board.set g (some p)⟩ := by
  obtain ⟨g, hg, hge, heq⟩ := (minimaxGo_fin_good sh b.find_num_empty b p alpha beta rfl).2 hnt
  refine ⟨g, hg, hge, ?_⟩
  show (minimaxGo sh b.find_num_empty b p alpha beta).2 = _
  rw [heq]
  have hne : b.board ≠ [] := by
    intro hx
    rw [hx] at hg
    simp at hg
  rw [Board.duplicate_eq hne]
  rfl

/-- Witness for C10 on the scenario-2 board with `X` to move. -/
theorem C10_frame_and_shape_witness :
    2 ≤ bScenario2.size ∧ evaluate bScenario2 = none ∧
      ∃ g, g < bScenario2.board.length ∧ bScenario2.board.getD g none = none ∧
        (AI.minimax idShuffle bScenario2 Player.X XVal.negInf XVal.posInf).2 =
          some ⟨bScenario2.size, bScenario2.board.set g (some Player.X)⟩ :=
  ⟨by decide, by decide,
    C10_frame_and_shape idShuffle bScenario2 Player.X XVal.negInf XVal.posInf
      (by decide) (by decide)⟩

/-! ### Claims C6, C7, C8, C9 -/

/-- C6 fails on the code: `place` mutates its receiver — placing `O` on the
empty in-range cell 2 of the scenario-2 board changes the receiver's cell
list, instead of leaving it identical as the claim states. -/
theorem C6_counterexample :
    bScenario2.board.getD 2 none = none ∧
      (bScenario2.place 2 Player.O).board ≠ bScenario2.board :=
  ⟨by decide, by decide⟩

/-- C6 (amended): `place(board, i, p)` mutates the receiver in place — after
the call cell `i` holds `p` and every other cell is unchanged; the search
preserves the original by placing on a `duplicate`, whose cells equal the
original's and whose mutation produces exactly the original cells with cell
`i` set. -/
theorem C6_place_mutates_receiver (b : Board) (i : Nat) (p : Player)
    (hi : i < b.board.length) :
    (b.place i p).board.getD i none = some p ∧
      (∀ j, j ≠ i → (b.place i p).board.getD j none = b.board.getD j none) ∧
      (b.board ≠ [] → (b.duplicate).board = b.board ∧
        ((b.duplicate).place i p).board = b.board.set i (some p)) := by
  refine ⟨?_, ?_, ?_⟩
  · have hlen : i < (b.board.set i (some p)).length := by
      rw [List.length_set]
      exact hi
    rw [Board.place, List.getD_eq_getElem _ none hlen]
    exact List.getElem_set_eq hlen
  · intro j hj
    by_cases hjl : j < b.board.length
    · have hlen : j < (b.board.set i (some p)).length := by
        rw [List.length_set]
        exact hjl
      rw [Board.place, List.getD_eq_getElem _ none hlen, List.getD_eq_getElem _ none hjl]
      exact List.getElem_set_of_ne (fun hx => hj hx.symm) (some p) hlen
    · have h1 : b.board.length ≤ j := le_of_not_lt hjl
      have h2 : (b.board.set i (some p)).length ≤ j := by
        rw [List.length_set]
        exact h1
      rw [Board.place, List.getD_eq_default _ none h2, List.getD_eq_default _ none h1]
  · intro hne
    rw [Board.duplicate_eq hne]
    exact ⟨rfl, rfl⟩

/-- Witness for C6 (amended) at cell 2 of the scenario-2 board. -/
theorem C6_place_mutates_receiver_witness :
    2 < bScenario2.board.length ∧
      (bScenario2.place 2 Player.O).board.getD 2 none = some Player.O :=
  ⟨by decide, (C6_place_mutates_receiver bScenario2 2 Player.O (by decide)).1⟩

/-- C7 fails on the code: placing on the occupied cell 0 of the scenario-2
board does not fail loudly — the assignment silently overwrites the `O`
there with `X`. -/
theorem C7_counterexample :
    bScenario2.board.getD 0 none = some Player.O ∧
      Board.placeChecked bScenario2 0 Player.X =
        some ⟨3, [some .X, some .O, none, some .X, some .X, none, none, none, none]⟩ :=
  ⟨by decide, by decide⟩

/-- C7 (amended): the assignment `self.board[grid] = player` raises
`IndexError` exactly when the index lies outside `[-size², size²)`; an
in-range index is written unconditionally — an occupied cell is silently
overwritten, and a negative in-range index silently writes cell
`size² + grid`. -/
theorem C7_place_raises_only_out_of_range (b : Board) (grid : Int) (p : Player) :
    (Board.placeChecked b grid p = none ↔
      grid < -(b.board.length : Int) ∨ (b.board.length : Int) ≤ grid) ∧
    (0 ≤ grid → grid < (b.board.length : Int) →
      Board.placeChecked b grid p = some ⟨b.size, b.board.set grid.toNat (some p)⟩) ∧
    (-(b.board.length : Int) ≤ grid → grid < 0 →
      Board.placeChecked b grid p =
        some ⟨b.size, b.board.set (grid + (b.board.length : Int)).toNat (some p)⟩) := by
  unfold Board.placeChecked
  refine ⟨?_, ?_, ?_⟩
  · split_ifs with h1 h2
    · simp only [false_iff]
      omega
    · simp only [false_iff]
      omega
    · simp only [true_iff]
      omega
  · intro hl hr
    split_ifs with h1 h2
    · rfl
    · omega
    · omega
  · intro hl hr
    split_ifs with h1 h2
    · omega
    · rfl
    · omega

/-- Witness for C7 (amended): in-range write on an occupied cell succeeds. -/
theorem C7_place_raises_only_out_of_range_witness :
    Board.placeChecked bScenario2 0 Player.O =
      some ⟨bScenario2.size, bScenario2.board.set (0 : Int).toNat (some Player.O)⟩ :=
  (C7_place_raises_only_out_of_range bScenario2 0 Player.O).2.1 (by decide) (by decide)

/-- C8 fails on the code: size 0 (below 1) is not rejected at construction —
`Board.__init__` returns a board value. -/
theorem C8_counterexample :
    (0 : Int) < 1 ∧ boardInit 0 ≠ none :=
  ⟨by decide, by decide⟩

/-- C8 (amended): board construction performs no size validation and never
fails: for every integer size — sizes below 1 included — it produces a board
of `size²` cells, all empty. -/
theorem C8_construction_never_rejects (size : Int) :
    ∃ cells, boardInit size = some (size, cells) ∧
      cells.length = (size ^ 2).toNat ∧ ∀ c ∈ cells, c = none := by
  refine ⟨_, rfl, List.length_replicate _ _, ?_⟩
  intro c hc
  exact List.eq_of_mem_replicate hc

/-- C9: the code crashes on a size-1 board, although the spec demands that
the degenerate size 1 not crash: construction succeeds (one empty cell), but
`check_win` for either player evaluates the anti-diagonal slice
`board[0:0:0]`, whose step `size - 1` is zero, so CPython raises
`ValueError: slice step cannot be zero` (modelled by `none`), and `minimax`
on the non-full board calls `check_win` through `evaluate` and propagates
the exception. -/
theorem C9_size_one_check_win_raises :
    create_board 1 = [none] ∧
      Board.check_win ⟨1, create_board 1⟩ Player.O = none ∧
      Board.check_win ⟨1, create_board 1⟩ Player.X = none ∧
      Board.find_num_empty ⟨1, create_board 1⟩ ≠ 0 :=
  ⟨by decide, by decide, by decide, by decide⟩

/-! ### Claim C4: the slice-built lines coincide with the coordinate lines -/

theorem pySlice_col (l : List (Option Player)) (n c : Nat) (hlen : l.length = n ^ 2)
    (hc : c < n) :
    pySlice l c l.length n = (List.range n).map fun r => l.getD (r * n + c) none := by
  unfold pySlice
  have hcount : (min l.length l.length - c + (n - 1)) / n = n := by
    rw [Nat.min_self, hlen, pow_two]
    refine Nat.div_eq_of_lt_le ?_ ?_
    · generalize n * n = m
      omega
    · rw [Nat.succ_mul]
      generalize n * n = m
      omega
  rw [hcount]
  refine List.map_congr_left ?_
  intro k _
  rw [Nat.add_comm c (k * n)]

theorem pySlice_row (l : List (Option Player)) (n r : Nat) (hlen : l.length = n ^ 2)
    (hr : r < n) :
    pySlice l (r * n) (r * n + n) 1 = (List.range n).map fun c => l.getD (r * n + c) none := by
  unfold pySlice
  have hrn : r * n + n ≤ l.length := by
    rw [hlen, pow_two]
    calc r * n + n = (r + 1) * n := (Nat.succ_mul r n).symm
      _ ≤ n * n := Nat.mul_le_mul_right n hr
  have hcount : (min (r * n + n) l.length - r * n + (1 - 1)) / 1 = n := by
    rw [Nat.min_eq_left hrn]
    omega
  rw [hcount]
  refine List.map_congr_left ?_
  intro k _
  rw [Nat.mul_one]

theorem pySlice_diag (l : List (Option Player)) (n : Nat) (hlen : l.length = n ^ 2) :
    pySlice l 0 l.length (n + 1) = (List.range n).map fun i => l.getD (i * (n + 1)) none := by
  unfold pySlice
  have hcount : (min l.length l.length - 0 + (n + 1 - 1)) / (n + 1) = n := by
    rw [Nat.min_self, hlen, pow_two]
    have : n * n - 0 + (n + 1 - 1) = n * (n + 1) := by
      rw [Nat.mul_succ]
      omega
    rw [this]
    exact Nat.mul_div_cancel n (Nat.succ_pos n)
  rw [hcount]
  refine List.map_congr_left ?_
  intro k _
  rw [Nat.zero_add]

theorem pySlice_adiag (l : List (Option Player)) (n : Nat) (hlen : l.length = n ^ 2)
    (h2 : 2 ≤ n) :
    pySlice l (n - 1) (n ^ 2 - 1) (n - 1) =
      (List.range n).map fun i => l.getD ((i + 1) * (n - 1)) none := by
  unfold pySlice
  have hmin : min (n ^ 2 - 1) l.length = n ^ 2 - 1 := by
    rw [hlen]
    exact Nat.min_eq_left (Nat.sub_le _ _)
  have hcount : (min (n ^ 2 - 1) l.length - (n - 1) + (n - 1 - 1)) / (n - 1) = n := by
    rw [hmin, pow_two]
    have hsub2 : n * (n - 1) = n * n - n := by
      rw [Nat.mul_sub_one, Nat.mul_comm]
    refine Nat.div_eq_of_lt_le ?_ ?_
    · rw [hsub2]
      generalize n * n = m
      omega
    · rw [Nat.succ_mul, hsub2]
      generalize n * n = m
      omega
  rw [hcount]
  refine List.map_congr_left ?_
  intro k _
  have : n - 1 + k * (n - 1) = (k + 1) * (n - 1) := by
    rw [Nat.succ_mul]
    omega
  rw [this]

theorem all_line_iff (n : Nat) (f : Nat → Option Player) (p : Player) :
    (((List.range n).map f).all fun e => e == some p) = true ↔ ∀ k, k < n → f k = some p := by
  simp [List.all_eq_true]

theorem checkWinB_iff (b : Board) (p : Player) (h2 : 2 ≤ b.size)
    (hlen : b.board.length = b.size ^ 2) :
    checkWinB b p = true ↔ specWin b p := by
  have hv : (((List.range b.size).map fun i => pySlice b.board i b.board.length b.size).any
      fun line => line.all fun e => e == some p) = true ↔
      ∃ c, c < b.size ∧ ∀ r, r < b.size → b.board.getD (r * b.size + c) none = some p := by
    rw [List.any_eq_true]
    constructor
    · rintro ⟨line, hmem, hall⟩
      obtain ⟨c, hcr, hceq⟩ := List.mem_map.mp hmem
      have hc : c < b.size := List.mem_range.mp hcr
      refine ⟨c, hc, ?_⟩
      rw [← hceq, pySlice_col b.board b.size c hlen hc] at hall
      exact (all_line_iff b.size _ p).mp hall
    · rintro ⟨c, hc, hcells⟩
      refine ⟨pySlice b.board c b.board.length b.size,
        List.mem_map.mpr ⟨c, List.mem_range.mpr hc, rfl⟩, ?_⟩
      rw [pySlice_col b.board b.size c hlen hc]
      exact (all_line_iff b.size _ p).mpr hcells
  have hh : (((List.range b.size).map fun k =>
      pySlice b.board (k * b.size) (k * b.size + b.size) 1).any
      fun line => line.all fun e => e == some p) = true ↔
      ∃ r, r < b.size ∧ ∀ c, c < b.size → b.board.getD (r * b.size + c) none = some p := by
    rw [List.any_eq_true]
    constructor
    · rintro ⟨line, hmem, hall⟩
      obtain ⟨r, hrr, hreq⟩ := List.mem_map.mp hmem
      have hr : r < b.size := List.mem_range.mp hrr
      refine ⟨r, hr, ?_⟩
      rw [← hreq, pySlice_row b.board b.size r hlen hr] at hall
      exact (all_line_iff b.size _ p).mp hall
    · rintro ⟨r, hr, hcells⟩
      refine ⟨pySlice b.board (r * b.size) (r * b.size + b.size) 1,
        List.mem_map.mpr ⟨r, List.mem_range.mpr hr, rfl⟩, ?_⟩
      rw [pySlice_row b.board b.size r hlen hr]
      exact (all_line_iff b.size _ p).mpr hcells
  have hd : (([pySlice b.board 0 b.board.length (b.size + 1),
      pySlice b.board (b.size - 1) (b.size ^ 2 - 1) (b.size - 1)]).any
      fun line => line.all fun e => e == some p) = true ↔
      ((∀ i, i < b.size → b.board.getD (i * (b.size + 1)) none = some p) ∨
        (∀ i, i < b.size → b.board.getD ((i + 1) * (b.size - 1)) none = some p)) := by
    simp only [List.any_cons, List.any_nil, Bool.or_false, Bool.or_eq_true]
    rw [pySlice_diag b.board b.size hlen, pySlice_adiag b.board b.size hlen h2,
      all_line_iff b.size _ p, all_line_iff b.size _ p]
  unfold checkWinB specWin
  simp only [List.any_append, Bool.or_eq_true, cellAt]
  rw [hv, hh, hd, or_assoc]

/-- C4: for every board of size `n ≥ 2` with `n²` cells, `check_win(board, p)`
raises no exception and returns `true` exactly when at least one of the
`2n+2` lines — the `n` columns, the `n` rows, the top-left-to-bottom-right
diagonal, or the top-right-to-bottom-left diagonal — has every cell equal to
`p` (`specWin`); an all-empty or mixed line never counts, since `specWin`
demands every cell of the line equal `p`. -/
theorem C4_check_win_iff_lines (b : Board) (p : Player) (h2 : 2 ≤ b.size)
    (hlen : b.board.length = b.size ^ 2) :
    (b.check_win p = some true ↔ specWin b p) ∧ b.check_win p ≠ none := by
  have hgw : b.check_win p = some (checkWinB b p) := by
    unfold Board.check_win
    rw [if_neg (by omega)]
  refine ⟨?_, ?_⟩
  · rw [hgw]
    constructor
    · intro h
      exact (checkWinB_iff b p h2 hlen).mp (Option.some.inj h)
    · intro h
      rw [(checkWinB_iff b p h2 hlen).mpr h]
  · rw [hgw]
    exact fun hx => Option.noConfusion hx

/-- Witness for C4 on the full board where `O` owns the top row. -/
theorem C4_check_win_iff_lines_witness :
    2 ≤ bFullOWin.size ∧ bFullOWin.board.length = bFullOWin.size ^ 2 ∧
      ((bFullOWin.check_win Player.O = some true ↔ specWin bFullOWin Player.O) ∧
        bFullOWin.check_win Player.O ≠ none) :=
  ⟨by decide, by decide, C4_check_win_iff_lines bFullOWin Player.O (by decide) (by decide)⟩

/-! ### Claim C5: the move at the root is enumeration-order independent -/

/-- Once the scenario-2 root loop has seen the winning child (best and alpha
both `5`), no later child can improve: every remaining child value is below
`5`, so a strict improvement would force the window lemma to certify a true
value above `5` — impossible.  The loop therefore keeps `(5, bb)`. -/
theorem scenario2_loop_after (sh : Shuffler) :
    ∀ (l2 : List Nat) (bb : Option Board),
      (∀ g ∈ l2, g < bScenario2.board.length ∧ bScenario2.board.getD g none = none ∧
        mmGo 4 ((bScenario2.duplicate).place g Player.O) (switch Player.O) < XVal.fin 5) →
      maxLoop (minimaxGo sh 4) bScenario2 Player.O l2 (XVal.fin 5) XVal.posInf
          (XVal.fin 5) bb = (XVal.fin 5, bb) := by
  intro l2
  induction l2 with
  | nil => intro bb _; rfl
  | cons g rest ih =>
    intro bb hmem
    obtain ⟨hg, hge, hlt⟩ := hmem g (List.mem_cons_self g rest)
    have hc : ((bScenario2.duplicate).place g Player.O).find_num_empty = 4 := by
      have h5 : bScenario2.find_num_empty = 5 := by decide
      have := find_num_empty_place Player.O hg hge
      omega
    set bn := (bScenario2.duplicate).place g Player.O with hbn
    set rn := (minimaxGo sh 4 bn (switch Player.O) (XVal.fin 5) XVal.posInf).1 with hrn
    obtain ⟨n, hfin⟩ := (minimaxGo_fin_good sh 4 bn (switch Player.O)
      (XVal.fin 5) XVal.posInf hc).1
    have hnlt : ¬ (XVal.fin 5 < rn) := by
      intro hlt5
      obtain ⟨W1, W2, W3⟩ := minimaxGo_w sh 4 bn (switch Player.O) (XVal.fin 5) XVal.posInf hc
        (XVal.fin_lt_posInf 5)
      have hrnT : rn < XVal.posInf := by
        rw [hrn, hfin]
        exact XVal.fin_lt_posInf n
      have hrm := W2 hlt5 hrnT
      have hlt5m : XVal.fin 5 < mmGo 4 bn (switch Player.O) := by
        rw [← hrm]
        exact hlt5
      exact absurd hlt hlt5m.asymm
    have hstep : maxLoop (minimaxGo sh 4) bScenario2 Player.O (g :: rest) (XVal.fin 5)
        XVal.posInf (XVal.fin 5) bb =
        if XVal.posInf ≤ (if XVal.fin 5 < rn then max (XVal.fin 5) rn else XVal.fin 5) then
          ((if XVal.fin 5 < rn then rn else XVal.fin 5),
            (if XVal.fin 5 < rn then some bn else bb))
        else maxLoop (minimaxGo sh 4) bScenario2 Player.O rest
          (if XVal.fin 5 < rn then max (XVal.fin 5) rn else XVal.fin 5) XVal.posInf
          (if XVal.fin 5 < rn then rn else XVal.fin 5)
          (if XVal.fin 5 < rn then some bn else bb) := rfl
    rw [hstep]
    simp only [if_neg hnlt]
    have hcut : ¬ (XVal.posInf ≤ XVal.fin 5) := by decide
    simp only [if_neg hcut]
    exact ih bb fun x hx => hmem x (List.mem_cons_of_mem g hx)

/-- Before the scenario-2 root loop reaches grid 2, alpha equals best (the
root starts at `(-inf, -inf)` and every update sets both to the new best),
so each strict improvement is a certified true child value below `5`; when
grid 2 arrives its immediate win returns exactly `5`, the best board becomes
the board with `O` at 2, and the tail is the already-settled phase. -/
theorem scenario2_loop_before (sh : Shuffler) :
    ∀ (l1 l2 : List Nat) (best : XVal) (bb : Option Board),
      (∀ g ∈ l1, g < bScenario2.board.length ∧ bScenario2.board.getD g none = none ∧
        mmGo 4 ((bScenario2.duplicate).place g Player.O) (switch Player.O) < XVal.fin 5) →
      (∀ g ∈ l2, g < bScenario2.board.length ∧ bScenario2.board.getD g none = none ∧
        mmGo 4 ((bScenario2.duplicate).place g Player.O) (switch Player.O) < XVal.fin 5) →
      best < XVal.fin 5 →
      maxLoop (minimaxGo sh 4) bScenario2 Player.O (l1 ++ 2 :: l2) best XVal.posInf best bb =
        (XVal.fin 5, some ((bScenario2.duplicate).place 2 Player.O)) := by
  intro l1
  induction l1 with
  | nil =>
    intro l2 best bb _ hmem2 hblt
    set bn := (bScenario2.duplicate).place 2 Player.O with hbn
    have hterm : evaluate bn = some 5 := by decide
    set rn := (minimaxGo sh 4 bn (switch Player.O) best XVal.posInf).1 with hrn
    have hrnval : rn = XVal.fin 5 := by
      rw [hrn, minimaxGo_terminal sh 4 bn (switch Player.O) best XVal.posInf hterm]
    have hstep : maxLoop (minimaxGo sh 4) bScenario2 Player.O ([] ++ 2 :: l2) best
        XVal.posInf best bb =
        if XVal.posInf ≤ (if best < rn then max best rn else best) then
          ((if best < rn then rn else best), (if best < rn then some bn else bb))
        else maxLoop (minimaxGo sh 4) bScenario2 Player.O l2
          (if best < rn then max best rn else best) XVal.posInf
          (if best < rn then rn else best) (if best < rn then some bn else bb) := rfl
    rw [hstep]
    have hcond : best < rn := by
      rw [hrnval]
      exact hblt
    simp only [if_pos hcond]
    have hmax : max best rn = XVal.fin 5 := by
      rw [max_eq_right (le_of_lt hcond), hrnval]
    have hcut : ¬ (XVal.posInf ≤ max best rn) := by
      rw [hmax]
      decide
    simp only [if_neg hcut]
    rw [hmax, hrnval]
    exact scenario2_loop_after sh l2 (some bn) hmem2
  | cons g l1 ih =>
    intro l2 best bb hmem1 hmem2 hblt
    obtain ⟨hg, hge, hlt⟩ := hmem1 g (List.mem_cons_self g l1)
    have hmem1t : ∀ x ∈ l1, x < bScenario2.board.length ∧
        bScenario2.board.getD x none = none ∧
        mmGo 4 ((bScenario2.duplicate).place x Player.O) (switch Player.O) < XVal.fin 5 :=
      fun x hx => hmem1 x (List.mem_cons_of_mem g hx)
    have hc : ((bScenario2.duplicate).place g Player.O).find_num_empty = 4 := by
      have h5 : bScenario2.find_num_empty = 5 := by decide
      have := find_num_empty_place Player.O hg hge
      omega
    set bn := (bScenario2.duplicate).place g Player.O with hbn
    set rn := (minimaxGo sh 4 bn (switch Player.O) best XVal.posInf).1 with hrn
    have hstep : maxLoop (minimaxGo sh 4) bScenario2 Player.O ((g :: l1) ++ 2 :: l2) best
        XVal.posInf best bb =
        if XVal.posInf ≤ (if best < rn then max best rn else best) then
          ((if best < rn then rn else best), (if best < rn then some bn else bb))
        else maxLoop (minimaxGo sh 4) bScenario2 Player.O (l1 ++ 2 :: l2)
          (if best < rn then max best rn else best) XVal.posInf
          (if best < rn then rn else best) (if best < rn then some bn else bb) := rfl
    rw [hstep]
    by_cases himp : best < rn
    · obtain ⟨n, hfin⟩ := (minimaxGo_fin_good sh 4 bn (switch Player.O)
        best XVal.posInf hc).1
      obtain ⟨W1, W2, W3⟩ := minimaxGo_w sh 4 bn (switch Player.O) best XVal.posInf hc
        (lt_trans hblt (XVal.fin_lt_posInf 5))
      have hrnT : rn < XVal.posInf := by
        rw [hrn, hfin]
        exact XVal.fin_lt_posInf n
      have hrnm := W2 himp hrnT
      have hrn5 : rn < XVal.fin 5 := by
        rw [hrn, hrnm]
        exact hlt
      simp only [if_pos himp]
      have hcut : ¬ (XVal.posInf ≤ max best rn) :=
        not_le.mpr (lt_trans (max_lt hblt hrn5) (XVal.fin_lt_posInf 5))
      simp only [if_neg hcut]
      rw [max_eq_right (le_of_lt himp)]
      exact ih l2 rn (some bn) hmem1t hmem2 hrn5
    · simp only [if_neg himp]
      have hcut : ¬ (XVal.posInf ≤ best) :=
        not_le.mpr (lt_trans hblt (XVal.fin_lt_posInf 5))
      simp only [if_neg hcut]
      exact ih l2 best bb hmem1t hmem2 hblt

/-- C5 (amended): on the board `[O,O,None,X,X,None,None,None,None]` with `O`
to move, for every enumeration order of the empty cells the search chooses
the move at index 2 — the returned board is the input board with `O` placed
at index 2 — and returns value `5 = countEmpty(resulting board) + 1 = 4+1`,
not the claimed `6`. -/
theorem C5_scenario2 :
    ∀ sh : Shuffler,
      AI.minimax sh bScenario2 Player.O XVal.negInf XVal.posInf =
        (XVal.fin 5,
          some ⟨3, [some .O, some .O, some .O, some .X, some .X, none, none, none, none]⟩) := by
  intro sh
  have hev : evaluate bScenario2 = none := by decide
  show minimaxGo sh bScenario2.find_num_empty bScenario2 Player.O XVal.negInf XVal.posInf = _
  have hc5 : bScenario2.find_num_empty = 5 := by decide
  rw [hc5]
  show minimaxGo sh (4 + 1) bScenario2 Player.O XVal.negInf XVal.posInf = _
  rw [minimaxGo_step_O sh 4 bScenario2 XVal.negInf XVal.posInf hev]
  have hperm : (bScenario2.find_empty_grids sh).Perm (emptyGridsBase bScenario2) :=
    (sh (emptyGridsBase bScenario2)).2
  have hbase : emptyGridsBase bScenario2 = [2, 5, 6, 7, 8] := by decide
  have h2mem : 2 ∈ bScenario2.find_empty_grids sh := by
    rw [Board.find_empty_grids]
    exact hperm.mem_iff.mpr (by rw [hbase]; decide)
  obtain ⟨l1, l2, hsplit⟩ := List.append_of_mem h2mem
  have hcnt : (bScenario2.find_empty_grids sh).count 2 = 1 := by
    rw [hperm.count_eq, hbase]
    decide
  rw [hsplit] at hcnt
  have hnot1 : 2 ∉ l1 ∧ 2 ∉ l2 := by
    simp only [List.count_append, List.count_cons_self] at hcnt
    constructor
    · exact List.count_eq_zero.mp (by omega)
    · exact List.count_eq_zero.mp (by omega)
  have hfacts : ∀ g ∈ bScenario2.find_empty_grids sh, g ≠ 2 →
      g < bScenario2.board.length ∧ bScenario2.board.getD g none = none ∧
        mmGo 4 ((bScenario2.duplicate).place g Player.O) (switch Player.O) < XVal.fin 5 := by
    intro g hgmem hgne
    have hgb : g ∈ emptyGridsBase bScenario2 := hperm.mem_iff.mp hgmem
    rw [hbase] at hgb
    simp only [List.mem_cons, List.mem_singleton, List.not_mem_nil, or_false] at hgb
    rcases hgb with h | h | h | h | h
    · exact absurd h hgne
    · subst h; refine ⟨by decide, by decide, by decide⟩
    · subst h; refine ⟨by decide, by decide, by decide⟩
    · subst h; refine ⟨by decide, by decide, by decide⟩
    · subst h; refine ⟨by decide, by decide, by decide⟩
  have hmm1 : ∀ g ∈ l1, g < bScenario2.board.length ∧
      bScenario2.board.getD g none = none ∧
      mmGo 4 ((bScenario2.duplicate).place g Player.O) (switch Player.O) < XVal.fin 5 := by
    intro g hgx
    refine hfacts g ?_ ?_
    · rw [hsplit]
      exact List.mem_append_left _ hgx
    · intro he
      exact hnot1.1 (he ▸ hgx)
  have hmm2 : ∀ g ∈ l2, g < bScenario2.board.length ∧
      bScenario2.board.getD g none = none ∧
      mmGo 4 ((bScenario2.duplicate).place g Player.O) (switch Player.O) < XVal.fin 5 := by
    intro g hgx
    refine hfacts g ?_ ?_
    · rw [hsplit]
      exact List.mem_append_right _ (List.mem_cons_of_mem 2 hgx)
    · intro he
      exact hnot1.2 (he ▸ hgx)
  rw [hsplit]
  rw [scenario2_loop_before sh l1 l2 XVal.negInf none hmm1 hmm2 (by decide)]
  rfl
